import Mathlib

/-!
# constrained_ik :: basic_kin

A shallow embedding of `constrained_ik/src/basic_kin.cpp` (class `BasicKin`).

* In the solver `double` is an arbitrary linearly ordered field `K` (exact
  arithmetic); the concrete evaluations use `ℚ`.
* The joint checks and the forward kinematics only compare and copy their
  values: they are written over any type `D` with a decidable `<`, of which
  nothing is assumed, and evaluated on `Double`, numbers with infinities
  and NaN under the IEEE comparisons.
* Eigen's dynamically sized `MatrixXd` / `VectorXd` carry their run-time
  dimensions; every operation whose operands must agree in size returns
  `none` when they do not (Eigen asserts there).
* Dereferencing a null `shared_ptr` and indexing outside a matrix are
  undefined behaviour in the source; the embedding returns `none` for them.
* Library code that the class calls (Eigen's `JacobiSVD`, KDL's tree/chain
  construction and FK solver) enters as a function parameter.
-/

namespace constrained_ik
namespace basic_kin

/-! ## Eigen -/

/-- Eigen `MatrixXd`: run-time row and column counts with the coefficients. -/
structure MatrixXd (K : Type) where
  rows : Nat
  cols : Nat
  coeff : Matrix (Fin rows) (Fin cols) K

/-- Eigen `VectorXd`: run-time size with the coefficients. -/
structure VectorXd (K : Type) where
  size : Nat
  coeff : Fin size → K

/-- Eigen `Affine3d`: a homogeneous 4x4 transform. -/
abbrev Affine3d (K : Type) := Matrix (Fin 4) (Fin 4) K

namespace MatrixXd

variable {K : Type}

/-- Read access `M(i,j)`; `none` outside the matrix. -/
def coeff? (M : MatrixXd K) (i j : Nat) : Option K :=
  if h : i < M.rows ∧ j < M.cols then some (M.coeff ⟨i, h.1⟩ ⟨j, h.2⟩) else none

/-- Write access `M(i,j) = v`; `none` outside the matrix. -/
def set (M : MatrixXd K) (i j : Nat) (v : K) : Option (MatrixXd K) :=
  if i < M.rows ∧ j < M.cols then
    some ⟨M.rows, M.cols, fun r c => if r.val = i ∧ c.val = j then v else M.coeff r c⟩
  else none

/-- Eigen `M.resize(r, c)`: the new coefficients are unspecified (the caller
overwrites them); the embedding fills them with `fill`. -/
def resize (_M : MatrixXd K) (r c : Nat) (fill : K) : MatrixXd K :=
  ⟨r, c, fun _ _ => fill⟩

/-- Eigen `M.transpose()`. -/
def transpose (M : MatrixXd K) : MatrixXd K :=
  ⟨M.cols, M.rows, M.coeff.transpose⟩

/-- Eigen matrix product `A * B`; `none` when `A.cols() != B.rows()`. -/
def mul [Mul K] [AddCommMonoid K] (A B : MatrixXd K) : Option (MatrixXd K) :=
  if h : A.cols = B.rows then
    some ⟨A.rows, B.cols, A.coeff * B.coeff.submatrix (Fin.cast h) id⟩
  else none

/-- Eigen matrix-vector product `A * v`; `none` when `A.cols() != v.size()`. -/
def mulVec [NonUnitalNonAssocSemiring K] (A : MatrixXd K) (v : VectorXd K) :
    Option (VectorXd K) :=
  if h : A.cols = v.size then
    some ⟨A.rows, A.coeff.mulVec (fun j => v.coeff (Fin.cast h j))⟩
  else none

end MatrixXd

namespace VectorXd

variable {K : Type}

/-- Read access `v[i]`; `none` outside the vector. -/
def coeff? (v : VectorXd K) (i : Nat) : Option K :=
  if h : i < v.size then some (v.coeff ⟨i, h⟩) else none

/-- Eigen `v.asDiagonal()`. -/
def asDiagonal [Zero K] (v : VectorXd K) : MatrixXd K :=
  ⟨v.size, v.size, Matrix.diagonal v.coeff⟩

/-- Squared Euclidean norm `v.squaredNorm()`. -/
def squaredNorm [Mul K] [AddCommMonoid K] (v : VectorXd K) : K :=
  Matrix.dotProduct v.coeff v.coeff

end VectorXd

/-- What `Eigen::JacobiSVD<MatrixXd>` exposes after a decomposition. -/
structure JacobiSVD (K : Type) where
  matrixU : MatrixXd K
  singularValues : VectorXd K
  matrixV : MatrixXd K

/-! ## KDL and urdf data -/

namespace KDL

/-- Enumeration `KDL::Joint::JointType`. -/
inductive JointType
  | RotAxis | RotX | RotY | RotZ | TransAxis | TransX | TransY | TransZ | None
  deriving DecidableEq, Repr

/-- The part of `KDL::Joint` that `BasicKin` reads. -/
structure Joint where
  getName : String
  getType : JointType
  deriving DecidableEq, Repr

/-- The part of `KDL::Segment` that `BasicKin` reads. -/
structure Segment where
  getJoint : Joint
  deriving DecidableEq, Repr

/-- A `KDL::Chain`: its segments in order from base to tip. -/
structure Chain where
  segments : List Segment
  deriving DecidableEq, Repr

/-- `KDL::Chain::getNrOfSegments`. -/
def Chain.getNrOfSegments (c : Chain) : Nat := c.segments.length

/-- `KDL::Chain::getNrOfJoints`: KDL counts the segments whose joint is not
of type `None`. -/
def Chain.getNrOfJoints (c : Chain) : Nat :=
  (c.segments.filter (fun s => decide (s.getJoint.getType ≠ JointType.None))).length

end KDL

namespace urdf

/-- The two fields of `urdf::JointLimits` that `BasicKin` reads. -/
structure JointLimits (K : Type) where
  lower : K
  upper : K

/-- A `urdf::Joint`; `limits` is a shared pointer that may be null. -/
structure Joint (K : Type) where
  limits : Option (JointLimits K)

/-- A `urdf::Model`: `getRoot` tells whether the root link pointer is set and
`getJoint` looks a joint up by name (null when absent). -/
structure Model (K : Type) where
  getRoot : Bool
  getJoint : String → Option (Joint K)

end urdf

/-! ## IEEE comparisons -/

/-- A `double` as far as its comparisons go: a number (the two signed zeros
compare equal and are one number), an infinity, or NaN. -/
inductive Double (K : Type)
  | num (x : K)
  | posInf
  | negInf
  | nan

namespace Double

variable {K : Type} [LinearOrder K]

/-- IEEE `a < b`: false as soon as an operand is NaN. -/
def blt : Double K → Double K → Bool
  | num a, num b => decide (a < b)
  | num _, posInf => true
  | negInf, num _ => true
  | negInf, posInf => true
  | _, _ => false

/-- IEEE `a <= b`: false as soon as an operand is NaN. -/
def ble : Double K → Double K → Bool
  | num a, num b => decide (a ≤ b)
  | num _, posInf => true
  | negInf, num _ => true
  | negInf, posInf => true
  | posInf, posInf => true
  | negInf, negInf => true
  | _, _ => false

instance : LT (Double K) := ⟨fun a b => blt a b = true⟩

instance : LE (Double K) := ⟨fun a b => ble a b = true⟩

instance : DecidableRel (α := Double K) (· < ·) :=
  fun a b => inferInstanceAs (Decidable (blt a b = true))

instance : DecidableRel (α := Double K) (· ≤ ·) :=
  fun a b => inferInstanceAs (Decidable (ble a b = true))

instance [Zero K] : Zero (Double K) := ⟨num 0⟩

instance [One K] : One (Double K) := ⟨num 1⟩

end Double

/-! ## BasicKin -/

/-- The data members of `BasicKin`. The two solver handles are rebuilt from
`robot_chain_` whenever it changes, so they carry no state of their own. -/
structure BasicKin (K : Type) where
  initialized_ : Bool
  robot_chain_ : KDL.Chain
  joint_limits_ : MatrixXd K

section Code

variable {K : Type} [LinearOrderedField K]

/-- Constant `eps` of `solvePInv`. -/
def eps : K := 1 / 100000

/-- Constant `lambda` of `solvePInv`. -/
def lambda : K := 1 / 100

/-- Body of the loop of `solvePInv`: the coefficient stored in `inv_Sv(i)`
for the singular value `s = Sv(i)`. -/
def invSv (s : K) : K :=
  if |s| > eps then 1 / s else s / (s * s + lambda * lambda)

/-- The vector `inv_Sv` after the loop of `solvePInv`. -/
def inv_Sv (Sv : VectorXd K) : VectorXd K :=
  ⟨Sv.size, fun i => invSv (Sv.coeff i)⟩

/-- `BasicKin::solvePInv(A, b, x)`. The first component is the returned flag,
the second the value of the output argument `x` afterwards. `svd` stands for
`Eigen::JacobiSVD<MatrixXd>(A, ComputeThinU | ComputeThinV)`. -/
def solvePInv (svd : MatrixXd K → JacobiSVD K) (A : MatrixXd K) (b x : VectorXd K) :
    Option (Bool × VectorXd K) :=
  if A.rows = 0 ∨ A.cols = 0 then some (false, x)
  else if A.rows ≠ b.size then some (false, x)
  else
    let U := (svd A).matrixU
    let Sv := (svd A).singularValues
    let V := (svd A).matrixV
    match (V.mul (inv_Sv Sv).asDiagonal).bind
        (fun VD => (VD.mul U.transpose).bind (fun VDUt => VDUt.mulVec b)) with
    | none => none
    | some x1 => some (true, x1)

end Code

section Checks

variable {D : Type} [LT D] [DecidableRel (α := D) (· < ·)]

/-- The bounds loop of `BasicKin::checkJoints` over the remaining indices,
carrying `jnt_bounds_ok`. Every iteration reads `vec(i)` and both limits of
row `i` (the second limit is an argument of the error message when the
first comparison already fails); the loop never leaves early. -/
def checkJointsLoop (kin : BasicKin D) (vec : VectorXd D) : List Nat → Bool → Option Bool
  | [], jnt_bounds_ok => some jnt_bounds_ok
  | i :: rest, jnt_bounds_ok =>
    match vec.coeff? i, kin.joint_limits_.coeff? i 0, kin.joint_limits_.coeff? i 1 with
    | some v, some lo, some hi =>
      if v < lo ∨ v > hi then checkJointsLoop kin vec rest false
      else checkJointsLoop kin vec rest jnt_bounds_ok
    | _, _, _ => none

/-- `BasicKin::checkJoints(vec)`. -/
def checkJoints (kin : BasicKin D) (vec : VectorXd D) : Option Bool :=
  if vec.size ≠ kin.robot_chain_.getNrOfJoints then some false
  else
    match checkJointsLoop kin vec (List.range vec.size) true with
    | none => none
    | some jnt_bounds_ok => if jnt_bounds_ok = false then some false else some true

/-- Write access `transform(r,c) = v` on an `Affine3d`. -/
def Affine3d.set (t : Affine3d D) (r c : Fin 4) (v : D) : Affine3d D :=
  fun i j => if i = r ∧ j = c then v else t i j

end Checks

section Init

variable {K : Type}

/-- The loop of `BasicKin::init` that fills `joint_limits_`, over the
remaining segments, carrying the row counter `j`. A segment with a joint of
type `None` is skipped; otherwise the urdf joint of that name and its
`limits` are dereferenced (a null pointer there is undefined behaviour) for
line 76 and again for line 77. -/
def initLimitsLoop (robot : urdf.Model K) :
    List KDL.Segment → Nat → MatrixXd K → Option (MatrixXd K)
  | [], _, joint_limits => some joint_limits
  | seg :: rest, j, joint_limits =>
    let jnt := seg.getJoint
    if jnt.getType = KDL.JointType.None then initLimitsLoop robot rest j joint_limits
    else
      match (robot.getJoint jnt.getName).bind (fun p => p.limits) with
      | none => none
      | some l =>
        match joint_limits.set j 0 l.lower with
        | none => none
        | some joint_limits1 =>
          match (robot.getJoint jnt.getName).bind (fun p => p.limits) with
          | none => none
          | some u =>
            match joint_limits1.set j 1 u.upper with
            | none => none
            | some joint_limits2 => initLimitsLoop robot rest (j + 1) joint_limits2

/-- `BasicKin::init(robot, base_name, tip_name)`. The first component is the
returned flag, the second the object afterwards. `treeFromUrdfModel` and
`getChain` stand for `kdl_parser::treeFromUrdfModel` and
`KDL::Tree::getChain` (flag and the value written to the output argument);
`junk` is the unspecified content of `joint_limits_` after `resize`. -/
def init {Tree : Type} (treeFromUrdfModel : urdf.Model K → Bool × Tree)
    (getChain : Tree → String → String → KDL.Chain → Bool × KDL.Chain)
    (junk : K) (kin : BasicKin K) (robot : urdf.Model K)
    (base_name tip_name : String) : Option (Bool × BasicKin K) :=
  let kin0 : BasicKin K := { kin with initialized_ := false }
  if !robot.getRoot then some (false, kin0)
  else
    let t := treeFromUrdfModel robot
    if !t.1 then some (false, kin0)
    else
      let c := getChain t.2 base_name tip_name kin0.robot_chain_
      let kin1 : BasicKin K := { kin0 with robot_chain_ := c.2 }
      if !c.1 then some (false, kin1)
      else
        let joint_limits0 := kin1.joint_limits_.resize kin1.robot_chain_.getNrOfJoints 2 junk
        match initLimitsLoop robot kin1.robot_chain_.segments 0 joint_limits0 with
        | none => none
        | some joint_limits =>
          some (true, { initialized_ := true, robot_chain_ := c.2,
                        joint_limits_ := joint_limits })

end Init

/-! ## Properties of the library parameters and concrete data -/

section Data

variable {K : Type}

/-- The shapes Eigen documents for a thin decomposition of `A`: with
`k = min(rows, cols)`, `U` is `rows x k`, `V` is `cols x k` and there are `k`
singular values. -/
def ThinShape (A : MatrixXd K) (d : JacobiSVD K) : Prop :=
  d.matrixU.rows = A.rows ∧ d.matrixU.cols = min A.rows A.cols ∧
  d.singularValues.size = min A.rows A.cols ∧
  d.matrixV.rows = A.cols ∧ d.matrixV.cols = min A.rows A.cols

/-- The columns of `M` are orthonormal: `Mᵀ * M = I`. -/
def OrthonormalCols [Mul K] [AddCommMonoid K] [One K] (M : MatrixXd K) : Prop :=
  M.coeff.transpose * M.coeff = 1

/-- The factors multiply back to `A`: `U * diag(Sv) * Vᵀ = A`. -/
def IsDecomposition [Mul K] [AddCommMonoid K] (A : MatrixXd K) (d : JacobiSVD K) : Prop :=
  (d.matrixU.mul d.singularValues.asDiagonal).bind
    (fun US => US.mul d.matrixV.transpose) = some A

/-- Singular values as Eigen orders them: non-negative and decreasing. -/
def SortedNonneg [LE K] [Zero K] (v : VectorXd K) : Prop :=
  (∀ i, 0 ≤ v.coeff i) ∧ ∀ i j, i ≤ j → v.coeff j ≤ v.coeff i

/-- The matrix `[[1,0],[0,0.0000001]]` of the concrete scenario. -/
def A_scn [Zero K] [One K] [Div K] [NatCast K] : MatrixXd K :=
  ⟨2, 2, !![1, 0; 0, 1 / 10000000]⟩

/-- The right-hand side `[1,1]` of the concrete scenario. -/
def b_scn [One K] : VectorXd K := ⟨2, ![1, 1]⟩

/-- A decomposition of `A_scn`: identity factors, singular values `1` and
`0.0000001`. -/
def svd_scn (_A : MatrixXd ℚ) : JacobiSVD ℚ :=
  ⟨⟨2, 2, 1⟩, ⟨2, ![1, 1 / 10000000]⟩, ⟨2, 2, 1⟩⟩

/-- The singular matrix `[[1,0],[0,0]]`. -/
def A_sing : MatrixXd ℚ := ⟨2, 2, !![1, 0; 0, 0]⟩

/-- A decomposition of `A_sing`: identity factors, singular values `1` and `0`. -/
def svd_sing (_A : MatrixXd ℚ) : JacobiSVD ℚ :=
  ⟨⟨2, 2, 1⟩, ⟨2, ![1, 0]⟩, ⟨2, 2, 1⟩⟩

/-- The wide 1x2 matrix `[[1,0]]`. -/
def A_wide : MatrixXd ℚ := ⟨1, 2, !![1, 0]⟩

/-- A thin decomposition of `A_wide`: `U = [1]`, `Sv = [1]`, `V = [[1],[0]]`. -/
def svd_wide (_A : MatrixXd ℚ) : JacobiSVD ℚ :=
  ⟨⟨1, 1, 1⟩, ⟨1, ![1]⟩, ⟨2, 1, !![1; 0]⟩⟩

/-- The 1x1 matrix `[2]`. -/
def A11 : MatrixXd ℚ := ⟨1, 1, fun _ _ => 2⟩

/-- The vector `[1]`. -/
def b1 : VectorXd ℚ := ⟨1, fun _ => 1⟩

/-- The empty vector. -/
def v0 : VectorXd ℚ := ⟨0, fun i => i.elim0⟩

/-- A decomposition of `A11`: `[2] = [1] * [2] * [1]`. -/
def svd11 (_A : MatrixXd ℚ) : JacobiSVD ℚ :=
  ⟨⟨1, 1, 1⟩, ⟨1, fun _ => 2⟩, ⟨1, 1, 1⟩⟩

/-- Joint `i` of `vec` lies within row `i` of the limits table, bounds
included: `joint_limits_(i,0) <= vec[i] <= joint_limits_(i,1)`. -/
def InBounds [LE K] (kin : BasicKin K) (vec : VectorXd K) (i : Nat) : Prop :=
  ∃ v lo hi, vec.coeff? i = some v ∧ kin.joint_limits_.coeff? i 0 = some lo ∧
    kin.joint_limits_.coeff? i 1 = some hi ∧ lo ≤ v ∧ v ≤ hi

/-- The test of line 178 does not fire on joint `i`: neither
`vec[i] < joint_limits_(i,0)` nor `vec(i) > joint_limits_(i,1)`. -/
def InRange [LT K] (kin : BasicKin K) (vec : VectorXd K) (i : Nat) : Prop :=
  ∃ v lo hi, vec.coeff? i = some v ∧ kin.joint_limits_.coeff? i 0 = some lo ∧
    kin.joint_limits_.coeff? i 1 = some hi ∧ ¬ (v < lo ∨ v > hi)

/-- The limits table has one row per joint of the chain and two columns. -/
def LimitsShape (kin : BasicKin K) : Prop :=
  kin.joint_limits_.rows = kin.robot_chain_.getNrOfJoints ∧ kin.joint_limits_.cols = 2

/-- Every row of the limits table has `lower <= upper`. -/
def LimitsOrdered [LE K] (kin : BasicKin K) : Prop :=
  ∀ j, j < kin.joint_limits_.rows →
    ∃ lo hi, kin.joint_limits_.coeff? j 0 = some lo ∧
      kin.joint_limits_.coeff? j 1 = some hi ∧ lo ≤ hi

/-- The actuated segments of a chain, in chain order. -/
def actuated (c : KDL.Chain) : List KDL.Segment :=
  c.segments.filter (fun s => decide (s.getJoint.getType ≠ KDL.JointType.None))

/-- The limits the robot description holds for a joint name, if any. -/
def limitsOf (robot : urdf.Model K) (name : String) : Option (urdf.JointLimits K) :=
  (robot.getJoint name).bind (fun p => p.limits)

/-- A chain of a fixed segment followed by one revolute joint `j1`. -/
def chain1 : KDL.Chain :=
  ⟨[⟨⟨"fixed0", KDL.JointType.None⟩⟩, ⟨⟨"j1", KDL.JointType.RotZ⟩⟩]⟩

/-- A default-constructed `BasicKin`. -/
def kinDefault : BasicKin ℚ := ⟨false, ⟨[]⟩, ⟨0, 0, fun i => i.elim0⟩⟩

/-- A tree builder that succeeds. -/
def treeOk (_robot : urdf.Model ℚ) : Bool × Unit := (true, ())

/-- A chain lookup that resolves to `chain1`. -/
def getChain1 (_t : Unit) (_base _tip : String) (_old : KDL.Chain) : Bool × KDL.Chain :=
  (true, chain1)

/-- A robot whose joint `j1` has the limits `[-1, 1]`. -/
def robotOk : urdf.Model ℚ :=
  ⟨true, fun n => if n = "j1" then some ⟨some ⟨-1, 1⟩⟩ else none⟩

/-- A robot whose joint `j1` is continuous and carries no limits. -/
def robotNoLimits : urdf.Model ℚ :=
  ⟨true, fun n => if n = "j1" then some ⟨none⟩ else none⟩

/-- A robot whose joint `j1` has `lower = 1` and `upper = -1`. -/
def robotSwapped : urdf.Model ℚ :=
  ⟨true, fun n => if n = "j1" then some ⟨some ⟨1, -1⟩⟩ else none⟩

/-- An initialized object on `chain1` with limits `[-1, 1]`. -/
def kin1 : BasicKin (Double ℚ) :=
  ⟨true, chain1, ⟨1, 2, !![Double.num (-1), Double.num 1]⟩⟩

/-- The joint vector `[1]`, on the upper limit of `kin1`. -/
def q1 : VectorXd (Double ℚ) := ⟨1, fun _ => Double.num 1⟩

/-- The joint vector `[NaN]`. -/
def qNaN : VectorXd (Double ℚ) := ⟨1, fun _ => Double.nan⟩

end Data

/-! ## Theorems -/

section Solver

variable {K : Type} [LinearOrderedField K]

theorem eps_pos : (0 : K) < eps := by unfold eps; positivity

theorem lambda_pos : (0 : K) < lambda := by unfold lambda; positivity

/-- The chain of products of `solvePInv` on factors of matching shapes is
the vector `(v * diag(inv_Sv) * uᵀ) * b`, of the length of `v`s row count. -/
theorem pinv_product {r c k : Nat} (u : Matrix (Fin r) (Fin k) K) (s : Fin k → K)
    (v : Matrix (Fin c) (Fin k) K) (bb : Fin r → K) :
    ((MatrixXd.mk c k v).mul (inv_Sv ⟨k, s⟩).asDiagonal).bind
      (fun VD => (VD.mul (MatrixXd.mk r k u).transpose).bind
        (fun VDUt => VDUt.mulVec ⟨r, bb⟩))
    = some ⟨c, (v * Matrix.diagonal (fun i => invSv (s i)) * u.transpose).mulVec bb⟩ := by
  simp [MatrixXd.mul, MatrixXd.mulVec, MatrixXd.transpose, VectorXd.asDiagonal, inv_Sv]

/-- With thin factors the solver gets past both guards exactly on a non-empty
`A` with `A.rows = b.size`, and then returns `true` with a vector of
`A.cols` entries. -/
theorem solvePInv_thin (svd : MatrixXd K → JacobiSVD K) (A : MatrixXd K) (b x : VectorXd K)
    (hthin : ThinShape A (svd A)) (hr : A.rows ≠ 0) (hc : A.cols ≠ 0)
    (hb : A.rows = b.size) :
    ∃ x1, solvePInv svd A b x = some (true, x1) ∧ x1.size = A.cols := by
  obtain ⟨r, c, a⟩ := A
  obtain ⟨n, bb⟩ := b
  obtain ⟨h1, h2, h3, h4, h5⟩ := hthin
  generalize hd : svd ⟨r, c, a⟩ = d at h1 h2 h3 h4 h5
  obtain ⟨⟨ur, uc, u⟩, ⟨sn, s⟩, ⟨vr, vc, v⟩⟩ := d
  simp only at h1 h2 h3 h4 h5 hr hc hb
  subst hb h1 h4
  rw [← h3] at h2 h5
  subst h2 h5
  refine ⟨⟨vr, (v * Matrix.diagonal (fun i => invSv (s i)) * u.transpose).mulVec bb⟩, ?_, rfl⟩
  unfold solvePInv
  simp only [hr, hc, or_self, if_false, ne_eq, not_true_eq_false, hd]
  rw [pinv_product]

/-- Claim C1: `solvePInv` returns `false` exactly when `A` has zero rows, or
zero columns, or `A.rows() != b.size()` (leaving `x` as it was), and returns
`true` in every other case, whatever the entries of `A` are. -/
theorem solvePInv_false_iff (svd : MatrixXd K → JacobiSVD K) (A : MatrixXd K)
    (b x : VectorXd K) (hthin : ThinShape A (svd A)) :
    ∃ r x1, solvePInv svd A b x = some (r, x1) ∧
      (r = false ↔ (A.rows = 0 ∨ A.cols = 0 ∨ A.rows ≠ b.size)) ∧
      (r = true ↔ ¬ (A.rows = 0 ∨ A.cols = 0 ∨ A.rows ≠ b.size)) ∧
      (r = false → x1 = x) := by
  by_cases hr : A.rows = 0
  · exact ⟨false, x, by simp [solvePInv, hr], by simp [hr], by simp [hr], fun _ => rfl⟩
  by_cases hc : A.cols = 0
  · exact ⟨false, x, by simp [solvePInv, hc], by simp [hc], by simp [hc], fun _ => rfl⟩
  by_cases hb : A.rows = b.size
  · obtain ⟨x1, h1, -⟩ := solvePInv_thin svd A b x hthin hr hc hb
    have hb2 : ¬ A.rows ≠ b.size := not_not.mpr hb
    exact ⟨true, x1, h1, by simp [hr, hc, hb2], by simp [hr, hc, hb2], by simp⟩
  · exact ⟨false, x, by simp [solvePInv, hr, hc, hb], by simp [hb], by simp [hb],
      fun _ => rfl⟩

/-- Witness of C1 on the singular matrix `[[1,0],[0,0]]` with `b = [1,1]`. -/
theorem solvePInv_false_iff_witness :
    ThinShape A_sing (svd_sing A_sing) ∧
    ∃ r x1, solvePInv svd_sing A_sing b_scn v0 = some (r, x1) ∧
      (r = false ↔
        (A_sing.rows = 0 ∨ A_sing.cols = 0 ∨ A_sing.rows ≠ (b_scn : VectorXd ℚ).size)) ∧
      (r = true ↔
        ¬ (A_sing.rows = 0 ∨ A_sing.cols = 0 ∨ A_sing.rows ≠ (b_scn : VectorXd ℚ).size)) ∧
      (r = false → x1 = v0) :=
  ⟨⟨rfl, rfl, rfl, rfl, rfl⟩,
    solvePInv_false_iff svd_sing A_sing b_scn v0 ⟨rfl, rfl, rfl, rfl, rfl⟩⟩

/-- Claim C3: for a non-empty `A` and `b.size() == A.rows()`, with thin
factors the product `V * diag(inv_Sv) * Uᵀ * b` is well-formed and the `x`
that `solvePInv` produces has `A.cols()` entries, whatever the shape of `A`. -/
theorem solvePInv_size (svd : MatrixXd K → JacobiSVD K) (A : MatrixXd K) (b x : VectorXd K)
    (hthin : ThinShape A (svd A)) (hr : A.rows ≠ 0) (hc : A.cols ≠ 0)
    (hb : b.size = A.rows) :
    ∃ x1, solvePInv svd A b x = some (true, x1) ∧ x1.size = A.cols :=
  solvePInv_thin svd A b x hthin hr hc hb.symm

/-- Witness of C3 on the wide matrix `[[1,0]]` with `b = [1]`: two entries. -/
theorem solvePInv_size_witness :
    ThinShape A_wide (svd_wide A_wide) ∧ A_wide.rows ≠ 0 ∧ A_wide.cols ≠ 0 ∧
    b1.size = A_wide.rows ∧
    ∃ x1, solvePInv svd_wide A_wide b1 v0 = some (true, x1) ∧ x1.size = A_wide.cols :=
  ⟨⟨rfl, rfl, rfl, rfl, rfl⟩, by decide, by decide, rfl,
    solvePInv_size svd_wide A_wide b1 v0 ⟨rfl, rfl, rfl, rfl, rfl⟩ (by decide) (by decide) rfl⟩

/-! ### Size of the inverse coefficients -/

theorem invSv_of_gt (s : K) (h : |s| > eps) : invSv s = 1 / s := by
  simp [invSv, h]

theorem invSv_of_not_gt (s : K) (h : ¬ |s| > eps) :
    invSv s = s / (s * s + lambda * lambda) := by
  simp [invSv, h]

theorem damp_denom_pos (s : K) : 0 < s * s + lambda * lambda := by
  have h1 : 0 ≤ s * s := mul_self_nonneg s
  have h2 : (0 : K) < lambda * lambda := mul_pos lambda_pos lambda_pos
  linarith

theorem abs_damped (s : K) :
    |s / (s * s + lambda * lambda)| = |s| / (s * s + lambda * lambda) := by
  rw [abs_div, abs_of_pos (damp_denom_pos s)]

/-- The damped coefficient never exceeds `1 / lambda` in magnitude. -/
theorem abs_damped_le (s : K) : |s / (s * s + lambda * lambda)| ≤ 1 / lambda := by
  have hl : (0 : K) < lambda := lambda_pos
  rw [abs_damped, div_le_div_iff₀ (damp_denom_pos s) hl, one_mul]
  have h1 : |s| * |s| = s * s := abs_mul_abs_self s
  nlinarith [sq_nonneg (|s| - lambda), abs_nonneg s]

/-- Below the threshold the damped coefficient is at most `eps / lambda²`. -/
theorem abs_damped_le_small (s : K) (h : ¬ |s| > eps) :
    |s| / (s * s + lambda * lambda) ≤ eps / (lambda * lambda) := by
  have hl : (0 : K) < lambda * lambda := mul_pos lambda_pos lambda_pos
  have hs : |s| ≤ eps := not_lt.mp h
  rw [div_le_div_iff₀ (damp_denom_pos s) hl]
  have h1 : 0 ≤ s * s := mul_self_nonneg s
  have h2 : (0 : K) ≤ eps := eps_pos.le
  nlinarith [abs_nonneg s, mul_nonneg h2 h1]

theorem eps_div_lambda_sq_lt : (eps : K) / (lambda * lambda) < 1 / eps := by
  unfold eps lambda; norm_num

/-- Every coefficient the loop stores is below `1 / eps` in magnitude. -/
theorem abs_invSv_lt (s : K) : |invSv s| < 1 / eps := by
  by_cases h : |s| > eps
  · rw [invSv_of_gt s h, abs_div, abs_one]
    exact one_div_lt_one_div_of_lt eps_pos h
  · rw [invSv_of_not_gt s h, abs_damped]
    exact lt_of_le_of_lt (abs_damped_le_small s h) eps_div_lambda_sq_lt

/-- Claim C4: for a singular value `s` with `|s| <= eps` (in particular
`s = 0`) the solver stores `s / (s² + lambda²)`, whose denominator is not
zero and whose magnitude is at most `1 / lambda`; for `s = 0` it stores `0`. -/
theorem invSv_damped (s : K) (hs : |s| ≤ eps) :
    s * s + lambda * lambda ≠ 0 ∧ invSv s = s / (s * s + lambda * lambda) ∧
    |s / (s * s + lambda * lambda)| ≤ 1 / lambda ∧ |invSv s| ≤ 1 / lambda ∧
    (s = 0 → invSv s = 0) := by
  have h : ¬ |s| > eps := not_lt.mpr hs
  refine ⟨(damp_denom_pos s).ne', invSv_of_not_gt s h, abs_damped_le s, ?_, ?_⟩
  · rw [invSv_of_not_gt s h]; exact abs_damped_le s
  · intro h0; rw [invSv_of_not_gt s h, h0, zero_div]

/-- Witness of C4 at the singular value `0`. -/
theorem invSv_damped_witness :
    |(0 : ℚ)| ≤ eps ∧
    ((0 : ℚ) * 0 + lambda * lambda ≠ 0 ∧ invSv (0 : ℚ) = 0 / (0 * 0 + lambda * lambda) ∧
      |(0 : ℚ) / (0 * 0 + lambda * lambda)| ≤ 1 / lambda ∧ |invSv (0 : ℚ)| ≤ 1 / lambda ∧
      ((0 : ℚ) = 0 → invSv (0 : ℚ) = 0)) :=
  ⟨by simp [eps], invSv_damped (0 : ℚ) (by simp [eps])⟩

/-! ### Norm of the solution -/

theorem dot_self_nonneg {n : Nat} (w : Fin n → K) : 0 ≤ Matrix.dotProduct w w := by
  unfold Matrix.dotProduct
  exact Finset.sum_nonneg (fun i _ => mul_self_nonneg (w i))

/-- A matrix with orthonormal columns preserves the squared norm. -/
theorem mulVec_dot_self {c k : Nat} (v : Matrix (Fin c) (Fin k) K)
    (hv : v.transpose * v = 1) (z : Fin k → K) :
    Matrix.dotProduct (v.mulVec z) (v.mulVec z) = Matrix.dotProduct z z := by
  rw [Matrix.dotProduct_mulVec, Matrix.vecMul_mulVec, hv, Matrix.vecMul_one]

/-- Bessel: the coordinates of `b` along orthonormal columns are no longer
than `b`. -/
theorem transpose_mulVec_dot_self_le {r k : Nat} (u : Matrix (Fin r) (Fin k) K)
    (hu : u.transpose * u = 1) (b : Fin r → K) :
    Matrix.dotProduct (u.transpose.mulVec b) (u.transpose.mulVec b)
      ≤ Matrix.dotProduct b b := by
  set y := u.transpose.mulVec b with hy
  have h1 : Matrix.dotProduct (u.mulVec y) (u.mulVec y) = Matrix.dotProduct y y :=
    mulVec_dot_self u hu y
  have h2 : Matrix.dotProduct b (u.mulVec y) = Matrix.dotProduct y y := by
    rw [Matrix.dotProduct_mulVec, ← Matrix.mulVec_transpose]
  have h3 := dot_self_nonneg (b - u.mulVec y)
  rw [Matrix.sub_dotProduct, Matrix.dotProduct_sub, Matrix.dotProduct_sub, h1,
    Matrix.dotProduct_comm (u.mulVec y) b, h2] at h3
  linarith

theorem diagonal_mulVec_dot_self_le {k : Nat} (d y : Fin k → K) (D : K)
    (hd : ∀ i, |d i| ≤ D) :
    Matrix.dotProduct ((Matrix.diagonal d).mulVec y) ((Matrix.diagonal d).mulVec y)
      ≤ D ^ 2 * Matrix.dotProduct y y := by
  unfold Matrix.dotProduct
  rw [Finset.mul_sum]
  apply Finset.sum_le_sum
  intro i _
  rw [Matrix.mulVec_diagonal]
  have h0 : d i ^ 2 ≤ D ^ 2 := by
    have h00 : 0 ≤ |d i| := abs_nonneg _
    calc d i ^ 2 = |d i| ^ 2 := (sq_abs _).symm
      _ ≤ D ^ 2 := by gcongr; exact hd i
  have h1 : 0 ≤ y i * y i := mul_self_nonneg _
  nlinarith

/-- The squared norm of `(v * diag(d) * uᵀ) * b` is at most `D² * |b|²` when
`u`, `v` have orthonormal columns and every `|d i| <= D`. -/
theorem pinv_dot_self_le {r c k : Nat} (u : Matrix (Fin r) (Fin k) K)
    (v : Matrix (Fin c) (Fin k) K) (hu : u.transpose * u = 1) (hv : v.transpose * v = 1)
    (d : Fin k → K) (D : K) (hd : ∀ i, |d i| ≤ D) (b : Fin r → K) :
    Matrix.dotProduct ((v * Matrix.diagonal d * u.transpose).mulVec b)
        ((v * Matrix.diagonal d * u.transpose).mulVec b) ≤ D ^ 2 * Matrix.dotProduct b b := by
  rw [← Matrix.mulVec_mulVec, ← Matrix.mulVec_mulVec, mulVec_dot_self v hv]
  calc _ ≤ D ^ 2 * Matrix.dotProduct (u.transpose.mulVec b) (u.transpose.mulVec b) :=
        diagonal_mulVec_dot_self_le d _ D hd
    _ ≤ D ^ 2 * Matrix.dotProduct b b :=
        mul_le_mul_of_nonneg_left (transpose_mulVec_dot_self_le u hu b) (sq_nonneg D)

/-- Claim C10: every coefficient of `inv_Sv` is below `1 / eps` in magnitude
(plain branch `1/|s| < 1/eps`, damped branch `|s|/(s² + lambda²) <= eps/lambda²`),
and for a non-empty `A` (of any rank) with thin factors of orthonormal columns
the solver returns an `x` with `|x|² <= |b|² / eps²`, so that the Euclidean
norm of `x` is at most `norm(b) / eps = 100000 * norm(b)`. -/
theorem solvePInv_bounded (svd : MatrixXd K → JacobiSVD K) (A : MatrixXd K)
    (b x : VectorXd K) (hthin : ThinShape A (svd A)) (hr : A.rows ≠ 0) (hc : A.cols ≠ 0)
    (hb : b.size = A.rows) (hU : OrthonormalCols (svd A).matrixU)
    (hV : OrthonormalCols (svd A).matrixV) :
    (∀ s : K, (|s| > eps → |invSv s| = 1 / |s| ∧ 1 / |s| < 1 / eps) ∧
      (¬ |s| > eps → |invSv s| = |s| / (s * s + lambda * lambda) ∧
        |s| / (s * s + lambda * lambda) ≤ eps / (lambda * lambda))) ∧
    (∀ i, |(inv_Sv (svd A).singularValues).coeff i| < 1 / eps) ∧
    ∃ x1, solvePInv svd A b x = some (true, x1) ∧
      x1.squaredNorm ≤ (1 / eps) ^ 2 * b.squaredNorm ∧
      ∀ nx nb : K, 0 ≤ nx → 0 ≤ nb → nx * nx = x1.squaredNorm → nb * nb = b.squaredNorm →
        nx ≤ nb / eps ∧ nb / eps = 100000 * nb := by
  refine ⟨fun s => ⟨fun h => ?_, fun h => ?_⟩, fun i => abs_invSv_lt _, ?_⟩
  · rw [invSv_of_gt s h, abs_div, abs_one]
    exact ⟨rfl, one_div_lt_one_div_of_lt eps_pos h⟩
  · rw [invSv_of_not_gt s h, abs_damped]
    exact ⟨rfl, abs_damped_le_small s h⟩
  obtain ⟨r, c, a⟩ := A
  obtain ⟨n, bb⟩ := b
  obtain ⟨h1, h2, h3, h4, h5⟩ := hthin
  unfold OrthonormalCols at hU hV
  generalize hd : svd ⟨r, c, a⟩ = d at h1 h2 h3 h4 h5 hU hV
  obtain ⟨⟨ur, uc, u⟩, ⟨sn, s⟩, ⟨vr, vc, v⟩⟩ := d
  simp only at h1 h2 h3 h4 h5 hr hc hb hU hV
  subst hb h1 h4
  rw [← h3] at h2 h5
  subst h2 h5
  have hx : solvePInv svd ⟨ur, vr, a⟩ ⟨ur, bb⟩ x = some (true,
      ⟨vr, (v * Matrix.diagonal (fun i => invSv (s i)) * u.transpose).mulVec bb⟩) := by
    unfold solvePInv
    simp only [hr, hc, or_self, if_false, ne_eq, not_true_eq_false, hd]
    rw [pinv_product]
  have hsq := pinv_dot_self_le u v hU hV (fun i => invSv (s i)) (1 / eps)
    (fun i => (abs_invSv_lt (s i)).le) bb
  refine ⟨_, hx, hsq, ?_⟩
  intro nx nb hnx hnb hxx hbb
  simp only [VectorXd.squaredNorm] at hxx hbb hsq
  have he : (1 : K) / eps = 100000 := by unfold eps; norm_num
  rw [← hxx, ← hbb, he] at hsq
  have hdiv : nb / eps = 100000 * nb := by rw [div_eq_mul_one_div, he, mul_comm]
  refine ⟨?_, hdiv⟩
  rw [hdiv]
  nlinarith

/-- Witness of C10 on the rank-deficient matrix `[[1,0],[0,0]]` with
`b = [1,1]`. -/
theorem solvePInv_bounded_witness :
    ThinShape A_sing (svd_sing A_sing) ∧ A_sing.rows ≠ 0 ∧ A_sing.cols ≠ 0 ∧
    (b_scn : VectorXd ℚ).size = A_sing.rows ∧
    OrthonormalCols (svd_sing A_sing).matrixU ∧ OrthonormalCols (svd_sing A_sing).matrixV ∧
    ∃ x1, solvePInv svd_sing A_sing b_scn v0 = some (true, x1) ∧
      x1.squaredNorm ≤ (1 / eps) ^ 2 * (b_scn : VectorXd ℚ).squaredNorm :=
  have hO : OrthonormalCols (svd_sing A_sing).matrixU := by
    show (1 : Matrix (Fin 2) (Fin 2) ℚ).transpose * (1 : Matrix (Fin 2) (Fin 2) ℚ)
      = (1 : Matrix (Fin 2) (Fin 2) ℚ)
    simp
  ⟨⟨rfl, rfl, rfl, rfl, rfl⟩, by decide, by decide, rfl, hO, hO,
    let ⟨x1, h1, h2, _⟩ := (solvePInv_bounded svd_sing A_sing b_scn v0
      ⟨rfl, rfl, rfl, rfl, rfl⟩ (by decide) (by decide) rfl hO hO).2.2
    ⟨x1, h1, h2⟩⟩

/-! ### Exact inverse on well-conditioned square systems -/

/-- With reciprocal coefficients `v * diag(g) * uᵀ` is a left inverse of
`u * diag(s) * vᵀ`. -/
theorem pinv_mul_self {n : Nat} (u v : Matrix (Fin n) (Fin n) K) (s g : Fin n → K)
    (hu : u.transpose * u = 1) (hv : v.transpose * v = 1) (hg : ∀ i, g i * s i = 1) :
    (v * Matrix.diagonal g * u.transpose) * (u * Matrix.diagonal s * v.transpose) = 1 := by
  have hv2 : v * v.transpose = 1 := (Matrix.mul_eq_one_comm).mp hv
  calc (v * Matrix.diagonal g * u.transpose) * (u * Matrix.diagonal s * v.transpose)
      = v * (Matrix.diagonal g * (u.transpose * u) * Matrix.diagonal s) * v.transpose := by
        simp only [Matrix.mul_assoc]
    _ = v * (Matrix.diagonal g * Matrix.diagonal s) * v.transpose := by
        rw [hu, Matrix.mul_one]
    _ = 1 := by
        rw [Matrix.diagonal_mul_diagonal]
        have : (fun i => g i * s i) = fun _ => (1 : K) := funext hg
        rw [this, Matrix.diagonal_one, Matrix.mul_one, hv2]

/-- Claim C2: for a non-empty square `A` decomposed as `U * diag(Sv) * Vᵀ` with
orthogonal `U`, `V` and every singular value above `eps`, and `b` of matching
length, the `x` produced by `solvePInv` satisfies `A * x = b` and is the only
solution, that is `x = A⁻¹ * b`. -/
theorem solvePInv_exact (svd : MatrixXd K → JacobiSVD K) (A : MatrixXd K)
    (b x : VectorXd K) (hsq : A.rows = A.cols) (hr : A.rows ≠ 0) (hb : b.size = A.rows)
    (hthin : ThinShape A (svd A)) (hU : OrthonormalCols (svd A).matrixU)
    (hV : OrthonormalCols (svd A).matrixV) (hdec : IsDecomposition A (svd A))
    (hs : ∀ i, eps < (svd A).singularValues.coeff i) :
    ∃ x1, solvePInv svd A b x = some (true, x1) ∧ A.mulVec x1 = some b ∧
      ∀ y, A.mulVec y = some b → y = x1 := by
  obtain ⟨r, c, a⟩ := A
  obtain ⟨n, bb⟩ := b
  obtain ⟨h1, h2, h3, h4, h5⟩ := hthin
  unfold OrthonormalCols at hU hV
  unfold IsDecomposition at hdec
  generalize hd : svd ⟨r, c, a⟩ = d at h1 h2 h3 h4 h5 hU hV hdec hs
  obtain ⟨⟨ur, uc, u⟩, ⟨sn, s⟩, ⟨vr, vc, v⟩⟩ := d
  simp only at h1 h2 h3 h4 h5 hr hb hU hV hs hsq
  subst hsq hb h1 h4
  rw [Nat.min_self] at h2 h3 h5
  subst h2 h3 h5
  have ha : u * Matrix.diagonal s * v.transpose = a := by
    simpa [MatrixXd.mul, MatrixXd.transpose, VectorXd.asDiagonal] using hdec
  have hg : ∀ i, invSv (s i) * s i = 1 := by
    intro i
    have hpos : 0 < s i := lt_trans eps_pos (hs i)
    have : |s i| > eps := by rw [abs_of_pos hpos]; exact hs i
    rw [invSv_of_gt _ this]
    field_simp
  have hPA := pinv_mul_self u v s (fun i => invSv (s i)) hU hV hg
  have hAP := (Matrix.mul_eq_one_comm).mp hPA
  rw [ha] at hPA hAP
  refine ⟨⟨_, (v * Matrix.diagonal (fun i => invSv (s i)) * u.transpose).mulVec bb⟩,
    ?_, ?_, ?_⟩
  · unfold solvePInv
    simp only [hr, or_self, if_false, ne_eq, not_true_eq_false, hd]
    rw [pinv_product]
  · simp [MatrixXd.mulVec, Matrix.mulVec_mulVec, hAP]
  · rintro ⟨m, yy⟩ hy
    simp only [MatrixXd.mulVec] at hy
    split at hy
    · rename_i hm
      subst hm
      simp at hy
      subst hy
      simp [Matrix.mulVec_mulVec, hPA]
    · simp at hy

/-- Witness of C2 on the 1x1 system `[2] x = [1]`. -/
theorem solvePInv_exact_witness :
    A11.rows = A11.cols ∧ A11.rows ≠ 0 ∧ b1.size = A11.rows ∧ ThinShape A11 (svd11 A11) ∧
    OrthonormalCols (svd11 A11).matrixU ∧ OrthonormalCols (svd11 A11).matrixV ∧
    IsDecomposition A11 (svd11 A11) ∧ (∀ i, eps < (svd11 A11).singularValues.coeff i) ∧
    ∃ x1, solvePInv svd11 A11 b1 v0 = some (true, x1) ∧ A11.mulVec x1 = some b1 ∧
      ∀ y, A11.mulVec y = some b1 → y = x1 :=
  have hO : OrthonormalCols (svd11 A11).matrixU := by
    show (1 : Matrix (Fin 1) (Fin 1) ℚ).transpose * (1 : Matrix (Fin 1) (Fin 1) ℚ)
      = (1 : Matrix (Fin 1) (Fin 1) ℚ)
    simp
  have hD : IsDecomposition A11 (svd11 A11) := by
    simp only [IsDecomposition, svd11, A11, MatrixXd.mul, MatrixXd.transpose,
      VectorXd.asDiagonal, dite_true, Option.some_bind, Fin.cast_refl]
    congr 2
    ext i j
    simp [Subsingleton.elim i j]
  have hS : ∀ i, eps < (svd11 A11).singularValues.coeff i := by
    intro i
    show (1 : ℚ) / 100000 < 2
    norm_num
  ⟨rfl, by decide, rfl, ⟨rfl, rfl, rfl, rfl, rfl⟩, hO, hO, hD, hS,
    solvePInv_exact svd11 A11 b1 v0 rfl (by decide) rfl ⟨rfl, rfl, rfl, rfl, rfl⟩ hO hO hD hS⟩

/-! ### Independence of the chosen factors -/

/-- Gram matrix of a decomposed matrix: `aᵀ * a = v * diag(s²) * vᵀ`. -/
theorem gram_of_decomposition {n : Nat} (u v a : Matrix (Fin n) (Fin n) K) (s : Fin n → K)
    (hu : u.transpose * u = 1) (ha : u * Matrix.diagonal s * v.transpose = a) :
    a.transpose * a = v * Matrix.diagonal (fun i => s i * s i) * v.transpose := by
  rw [← ha]
  simp only [Matrix.transpose_mul, Matrix.transpose_transpose, Matrix.diagonal_transpose]
  calc v * (Matrix.diagonal s * u.transpose) * (u * Matrix.diagonal s * v.transpose)
      = v * (Matrix.diagonal s * (u.transpose * u) * Matrix.diagonal s) * v.transpose := by
        simp only [Matrix.mul_assoc]
    _ = v * Matrix.diagonal (fun i => s i * s i) * v.transpose := by
        rw [hu, Matrix.mul_one, Matrix.diagonal_mul_diagonal]

/-- When the inverse coefficients are `g i = α * s i + β * s i ^ 3`, the matrix
`v * diag(g) * uᵀ` is the polynomial `α • aᵀ + β • (aᵀ * a * aᵀ)` of `a`, whatever
orthogonal factors were chosen. -/
theorem pinv_eq_poly {n : Nat} (u v a : Matrix (Fin n) (Fin n) K) (s g : Fin n → K)
    (α β : K) (hu : u.transpose * u = 1) (hv : v.transpose * v = 1)
    (ha : u * Matrix.diagonal s * v.transpose = a)
    (hg : ∀ i, g i = α * s i + β * (s i * s i * s i)) :
    v * Matrix.diagonal g * u.transpose
      = α • a.transpose + β • (a.transpose * a * a.transpose) := by
  have hat : a.transpose = v * Matrix.diagonal s * u.transpose := by
    rw [← ha]
    simp only [Matrix.transpose_mul, Matrix.transpose_transpose, Matrix.diagonal_transpose,
      Matrix.mul_assoc]
  have h3 : a.transpose * a * a.transpose
      = v * Matrix.diagonal (fun i => s i * s i * s i) * u.transpose := by
    rw [gram_of_decomposition u v a s hu ha, hat]
    calc v * Matrix.diagonal (fun i => s i * s i) * v.transpose
          * (v * Matrix.diagonal s * u.transpose)
        = v * (Matrix.diagonal (fun i => s i * s i) * (v.transpose * v) * Matrix.diagonal s)
            * u.transpose := by simp only [Matrix.mul_assoc]
      _ = v * Matrix.diagonal (fun i => s i * s i * s i) * u.transpose := by
          rw [hv, Matrix.mul_one, Matrix.diagonal_mul_diagonal]
  have hdiag : Matrix.diagonal g
      = α • Matrix.diagonal s + β • Matrix.diagonal (fun i => s i * s i * s i) := by
    ext i j
    by_cases hij : i = j
    · subst hij; simp [hg]
    · simp [hij]
  rw [h3, hat, hdiag]
  simp only [Matrix.mul_add, Matrix.add_mul, Matrix.mul_smul, Matrix.smul_mul]

/-- Two ordered non-negative numbers are determined by the sum and the product
of their squares. -/
theorem sv_of_sums (p q e : K) (he0 : 0 < e) (he1 : e < 1) (hq : 0 ≤ q) (hpq : q ≤ p)
    (hsum : p * p + q * q = 1 + e * e) (hprod : (p * p) * (q * q) = e * e) :
    p = 1 ∧ q = e := by
  have hp0 : 0 ≤ p := le_trans hq hpq
  have hpqe : p * q = e := by
    have h1 : (p * q) * (p * q) = e * e := by rw [← hprod]; ring
    exact (mul_self_inj (mul_nonneg hp0 hq) he0.le).mp h1
  have hd : (p - q) * (p - q) = (1 - e) * (1 - e) := by
    have : (p - q) * (p - q) = (p * p + q * q) - 2 * (p * q) := by ring
    rw [this, hsum, hpqe]; ring
  have hd2 : p - q = 1 - e :=
    (mul_self_inj (by linarith) (by linarith)).mp hd
  have hs : (p + q) * (p + q) = (1 + e) * (1 + e) := by
    have : (p + q) * (p + q) = (p * p + q * q) + 2 * (p * q) := by ring
    rw [this, hsum, hpqe]; ring
  have hs2 : p + q = 1 + e :=
    (mul_self_inj (by linarith) (by linarith)).mp hs
  constructor <;> linarith

/-- The squares of the singular values add up to the trace of `aᵀ * a`. -/
theorem sv_sq_sum {n : Nat} (u v a : Matrix (Fin n) (Fin n) K) (s : Fin n → K)
    (hu : u.transpose * u = 1) (hv : v.transpose * v = 1)
    (ha : u * Matrix.diagonal s * v.transpose = a) :
    Matrix.trace (a.transpose * a) = ∑ i, s i * s i := by
  rw [gram_of_decomposition u v a s hu ha, Matrix.trace_mul_comm, ← Matrix.mul_assoc, hv,
    Matrix.one_mul, Matrix.trace_diagonal]

/-- The squares of the singular values multiply to the determinant of `aᵀ * a`. -/
theorem sv_sq_prod {n : Nat} (u v a : Matrix (Fin n) (Fin n) K) (s : Fin n → K)
    (hu : u.transpose * u = 1) (hv : v.transpose * v = 1)
    (ha : u * Matrix.diagonal s * v.transpose = a) :
    Matrix.det (a.transpose * a) = ∏ i, s i * s i := by
  have hv2 : v.det * v.transpose.det = 1 := by
    rw [← Matrix.det_mul, (Matrix.mul_eq_one_comm).mp hv, Matrix.det_one]
  rw [gram_of_decomposition u v a s hu ha, Matrix.det_mul, Matrix.det_mul, Matrix.det_diagonal]
  calc v.det * (∏ i, s i * s i) * v.transpose.det
      = (v.det * v.transpose.det) * ∏ i, s i * s i := by ring
    _ = ∏ i, s i * s i := by rw [hv2, one_mul]

/-- The singular value `1` is above `eps`: plain reciprocal. -/
theorem invSv_one : invSv (1 : K) = 1 := by
  have h : |(1 : K)| > eps := by rw [abs_one]; unfold eps; norm_num
  rw [invSv_of_gt _ h, div_one]

/-- The singular value `0.0000001` is not above `eps`: damped reciprocal. -/
theorem invSv_scn : invSv ((1 : K) / 10000000)
    = (1 / 10000000) / ((1 / 10000000) * (1 / 10000000) + lambda * lambda) := by
  have h : ¬ |(1 : K) / 10000000| > eps := by
    rw [abs_of_pos (by positivity)]; unfold eps; norm_num
  rw [invSv_of_not_gt _ h]

/-- Claim C5: on `A = [[1,0],[0,0.0000001]]`, `b = [1,1]`, for whatever thin
decomposition of `A` with orthogonal factors and ordered non-negative singular
values the library returns, `solvePInv` succeeds with `x[0] = 1` (plain
reciprocal of the singular value `1`) and
`x[1] = 0.0000001 / (0.0000001² + 0.01²)`, which is below `0.001`. -/
theorem solvePInv_scenario (svd : MatrixXd K → JacobiSVD K) (x : VectorXd K)
    (hthin : ThinShape A_scn (svd A_scn)) (hU : OrthonormalCols (svd A_scn).matrixU)
    (hV : OrthonormalCols (svd A_scn).matrixV) (hdec : IsDecomposition A_scn (svd A_scn))
    (hsort : SortedNonneg (svd A_scn).singularValues) :
    ∃ x1, solvePInv svd A_scn b_scn x = some (true, x1) ∧ x1.size = 2 ∧
      x1.coeff? 0 = some 1 ∧
      x1.coeff? 1
        = some ((1 / 10000000) / ((1 / 10000000) * (1 / 10000000) + lambda * lambda)) ∧
      ((1 : K) / 10000000) / ((1 / 10000000) * (1 / 10000000) + lambda * lambda) < 1 / 1000 := by
  obtain ⟨h1, h2, h3, h4, h5⟩ := hthin
  unfold OrthonormalCols at hU hV
  unfold IsDecomposition at hdec
  unfold SortedNonneg at hsort
  generalize hd : svd A_scn = d at h1 h2 h3 h4 h5 hU hV hdec hsort
  obtain ⟨⟨ur, uc, u⟩, ⟨sn, s⟩, ⟨vr, vc, v⟩⟩ := d
  simp only [A_scn, Nat.min_self] at h1 h2 h3 h4 h5 hU hV hsort
  subst h1 h2 h3 h4 h5
  have ha : u * Matrix.diagonal s * v.transpose = !![1, 0; 0, 1 / 10000000] := by
    simpa [A_scn, MatrixXd.mul, MatrixXd.transpose, VectorXd.asDiagonal] using hdec
  have hdiag : (!![1, 0; 0, 1 / 10000000] : Matrix (Fin 2) (Fin 2) K)
      = Matrix.diagonal ![1, 1 / 10000000] := by
    ext i j
    fin_cases i <;> fin_cases j <;> simp
  rw [hdiag] at ha
  -- the singular values
  have hsum := sv_sq_sum u v _ s hU hV ha
  have hprod := sv_sq_prod u v _ s hU hV ha
  rw [Matrix.diagonal_transpose, Matrix.diagonal_mul_diagonal] at hsum hprod
  rw [Matrix.trace_diagonal] at hsum
  rw [Matrix.det_diagonal] at hprod
  simp only [Fin.sum_univ_two, Fin.prod_univ_two, Matrix.cons_val_zero, Matrix.cons_val_one,
    Matrix.head_cons] at hsum hprod
  obtain ⟨hs0, hs1⟩ := sv_of_sums (s 0) (s 1) (1 / 10000000) (by positivity) (by norm_num)
    (hsort.1 1) (hsort.2 0 1 (by decide)) (by rw [← hsum]; ring)
    (by rw [← hprod]; ring)
  -- the solution as a polynomial of the matrix
  obtain ⟨α, β, hα, hβ⟩ : ∃ α β : K, α + β = 1 ∧
      α * (1 / 10000000) + β * (1 / 10000000 * (1 / 10000000) * (1 / 10000000))
        = (1 / 10000000) / ((1 / 10000000) * (1 / 10000000) + lambda * lambda) := by
    refine ⟨1 - ((1 / 10000000) / ((1 / 10000000) * (1 / 10000000) + lambda * lambda)
        - 1 / 10000000) / (1 / 10000000 * (1 / 10000000) * (1 / 10000000) - 1 / 10000000),
      ((1 / 10000000) / ((1 / 10000000) * (1 / 10000000) + lambda * lambda)
        - 1 / 10000000) / (1 / 10000000 * (1 / 10000000) * (1 / 10000000) - 1 / 10000000),
      by ring, ?_⟩
    unfold lambda
    norm_num
  have hg : ∀ i, invSv (s i) = α * s i + β * (s i * s i * s i) := by
    intro i
    fin_cases i
    · simp only [Fin.zero_eta, hs0, invSv_one]; linarith
    · simp only [Fin.mk_one, hs1, invSv_scn]; linarith
  have hP := pinv_eq_poly u v _ s (fun i => invSv (s i)) α β hU hV ha hg
  refine ⟨⟨2, (v * Matrix.diagonal (fun i => invSv (s i)) * u.transpose).mulVec ![1, 1]⟩,
    ?_, rfl, ?_, ?_, ?_⟩
  · unfold solvePInv
    simp only [hd]
    simp only [A_scn, b_scn]
    simp only [OfNat.ofNat_ne_zero, or_self, if_false, ne_eq, not_true_eq_false]
    rw [pinv_product]
  · rw [hP]
    simp [VectorXd.coeff?, Matrix.mulVec, Matrix.dotProduct, Fin.sum_univ_two,
      Matrix.diagonal_transpose, Matrix.diagonal_mul_diagonal]
    linarith
  · rw [hP]
    simp [VectorXd.coeff?, Matrix.mulVec, Matrix.dotProduct, Fin.sum_univ_two,
      Matrix.diagonal_transpose, Matrix.diagonal_mul_diagonal]
    linarith
  · unfold lambda; norm_num

/-- Witness of C5 with identity factors and singular values `1`, `0.0000001`. -/
theorem solvePInv_scenario_witness :
    ThinShape A_scn (svd_scn A_scn) ∧ OrthonormalCols (svd_scn A_scn).matrixU ∧
    OrthonormalCols (svd_scn A_scn).matrixV ∧ IsDecomposition A_scn (svd_scn A_scn) ∧
    SortedNonneg (svd_scn A_scn).singularValues ∧
    ∃ x1, solvePInv svd_scn A_scn b_scn v0 = some (true, x1) ∧ x1.size = 2 ∧
      x1.coeff? 0 = some 1 ∧
      x1.coeff? 1
        = some ((1 / 10000000) / ((1 / 10000000) * (1 / 10000000) + lambda * lambda)) ∧
      ((1 : ℚ) / 10000000) / ((1 / 10000000) * (1 / 10000000) + lambda * lambda) < 1 / 1000 :=
  have hO : OrthonormalCols (svd_scn A_scn).matrixU := by
    show (1 : Matrix (Fin 2) (Fin 2) ℚ).transpose * (1 : Matrix (Fin 2) (Fin 2) ℚ)
      = (1 : Matrix (Fin 2) (Fin 2) ℚ)
    simp
  have hD : IsDecomposition A_scn (svd_scn A_scn) := by
    simp only [IsDecomposition, svd_scn, A_scn, MatrixXd.mul, MatrixXd.transpose,
      VectorXd.asDiagonal, dite_true, Option.some_bind, Fin.cast_refl]
    congr 2
    ext i j
    fin_cases i <;> fin_cases j <;> simp
  have hS : SortedNonneg (svd_scn A_scn).singularValues := by
    constructor
    · intro i
      show (0 : ℚ) ≤ ![1, 1 / 10000000] i
      fin_cases i <;> simp
    · intro i j hij
      show (![1, 1 / 10000000] j : ℚ) ≤ ![1, 1 / 10000000] i
      fin_cases i <;> fin_cases j <;> simp at hij ⊢
      norm_num
  ⟨⟨rfl, rfl, rfl, rfl, rfl⟩, hO, hO, hD, hS,
    solvePInv_scenario svd_scn v0 ⟨rfl, rfl, rfl, rfl, rfl⟩ hO hO hD hS⟩

end Solver

/-! ## Kinematics -/

section Tables

variable {K : Type}

theorem matrix_coeff?_of_lt (M : MatrixXd K) {i j : Nat} (hi : i < M.rows) (hj : j < M.cols) :
    M.coeff? i j = some (M.coeff ⟨i, hi⟩ ⟨j, hj⟩) := by
  simp [MatrixXd.coeff?, hi, hj]

theorem vector_coeff?_of_lt (v : VectorXd K) {i : Nat} (hi : i < v.size) :
    v.coeff? i = some (v.coeff ⟨i, hi⟩) := by
  simp [VectorXd.coeff?, hi]

/-- A successful write keeps the shape, stores the value and leaves every
other coefficient alone. -/
theorem matrix_set_spec (M M1 : MatrixXd K) (i j : Nat) (v : K) (h : M.set i j v = some M1) :
    i < M.rows ∧ j < M.cols ∧ M1.rows = M.rows ∧ M1.cols = M.cols ∧
    M1.coeff? i j = some v ∧
    ∀ i1 j1, ¬ (i1 = i ∧ j1 = j) → M1.coeff? i1 j1 = M.coeff? i1 j1 := by
  unfold MatrixXd.set at h
  split_ifs at h with hb
  simp only [Option.some.injEq] at h
  subst h
  refine ⟨hb.1, hb.2, rfl, rfl, ?_, ?_⟩
  · simp [MatrixXd.coeff?, hb]
  · intro i1 j1 hne
    simp only [MatrixXd.coeff?]
    split_ifs with h1
    · simp [hne]
    · rfl

/-- What the limits loop leaves behind when it completes: the shape is kept,
the rows before `j` are untouched, and row `j + k` holds the limits of the
`k`-th actuated segment. -/
theorem initLimitsLoop_spec (robot : urdf.Model K) (segs : List KDL.Segment) :
    ∀ (j : Nat) (lim lim1 : MatrixXd K), initLimitsLoop robot segs j lim = some lim1 →
      lim1.rows = lim.rows ∧ lim1.cols = lim.cols ∧
      (∀ i c, i < j → lim1.coeff? i c = lim.coeff? i c) ∧
      ∀ k seg0, (segs.filter
            (fun s => decide (s.getJoint.getType ≠ KDL.JointType.None)))[k]? = some seg0 →
        ∃ l, limitsOf robot seg0.getJoint.getName = some l ∧
          lim1.coeff? (j + k) 0 = some l.lower ∧ lim1.coeff? (j + k) 1 = some l.upper := by
  induction segs with
  | nil =>
    intro j lim lim1 h
    simp only [initLimitsLoop, Option.some.injEq] at h
    subst h
    exact ⟨rfl, rfl, fun _ _ _ => rfl, fun k seg0 hk => by simp at hk⟩
  | cons seg rest ih =>
    intro j lim lim1 h
    by_cases hty : seg.getJoint.getType = KDL.JointType.None
    · simp only [initLimitsLoop, hty, if_true] at h
      have hf : (seg :: rest).filter
          (fun s => decide (s.getJoint.getType ≠ KDL.JointType.None))
          = rest.filter (fun s => decide (s.getJoint.getType ≠ KDL.JointType.None)) := by
        simp [List.filter_cons, hty]
      rw [hf]
      exact ih j lim lim1 h
    · simp only [initLimitsLoop, hty, if_false] at h
      cases hl : (robot.getJoint seg.getJoint.getName).bind (fun p => p.limits) with
      | none => simp [hl] at h
      | some l =>
        simp only [hl] at h
        cases hs0 : lim.set j 0 l.lower with
        | none => simp [hs0] at h
        | some lim2 =>
          simp only [hs0] at h
          cases hs1 : lim2.set j 1 l.upper with
          | none => simp [hs1] at h
          | some lim3 =>
            simp only [hs1] at h
            obtain ⟨-, -, r2, c2, e2, o2⟩ := matrix_set_spec lim lim2 j 0 l.lower hs0
            obtain ⟨-, -, r3, c3, e3, o3⟩ := matrix_set_spec lim2 lim3 j 1 l.upper hs1
            obtain ⟨r4, c4, o4, f4⟩ := ih (j + 1) lim3 lim1 h
            have hf : (seg :: rest).filter
                (fun s => decide (s.getJoint.getType ≠ KDL.JointType.None))
                = seg :: rest.filter
                  (fun s => decide (s.getJoint.getType ≠ KDL.JointType.None)) := by
              simp [List.filter_cons, hty]
            rw [hf]
            refine ⟨by omega, by omega, ?_, ?_⟩
            · intro i c hi
              rw [o4 i c (by omega), o3 i c (by omega), o2 i c (by omega)]
            · intro k seg0 hk
              cases k with
              | zero =>
                simp only [List.getElem?_cons_zero, Option.some.injEq] at hk
                subst hk
                refine ⟨l, hl, ?_, ?_⟩
                · rw [Nat.add_zero, o4 j 0 (by omega), o3 j 0 (by simp), e2]
                · rw [Nat.add_zero, o4 j 1 (by omega), e3]
              | succ k =>
                simp only [List.getElem?_cons_succ] at hk
                obtain ⟨l1, hl1, a1, b1⟩ := f4 k seg0 hk
                refine ⟨l1, hl1, ?_, ?_⟩
                · rw [← a1]; congr 1; omega
                · rw [← b1]; congr 1; omega

/-- What a successful `init` leaves behind. -/
theorem init_success_spec {Tree : Type} (treeFromUrdfModel : urdf.Model K → Bool × Tree)
    (getChain : Tree → String → String → KDL.Chain → Bool × KDL.Chain)
    (junk : K) (kin kin1 : BasicKin K) (robot : urdf.Model K) (base_name tip_name : String)
    (h : init treeFromUrdfModel getChain junk kin robot base_name tip_name = some (true, kin1)) :
    kin1.initialized_ = true ∧
    kin1.robot_chain_
      = (getChain (treeFromUrdfModel robot).2 base_name tip_name kin.robot_chain_).2 ∧
    kin1.joint_limits_.rows = (actuated kin1.robot_chain_).length ∧
    kin1.joint_limits_.cols = 2 ∧
    ∀ j seg, (actuated kin1.robot_chain_)[j]? = some seg →
      ∃ l, limitsOf robot seg.getJoint.getName = some l ∧
        kin1.joint_limits_.coeff? j 0 = some l.lower ∧
        kin1.joint_limits_.coeff? j 1 = some l.upper := by
  unfold init at h
  simp only at h
  split_ifs at h with h1 h2 h3
  · simp at h
  · simp at h
  · simp at h
  split at h
  · cases h
  · rename_i lim hloop
    simp only [Option.some.injEq, Prod.mk.injEq, true_and] at h
    subst h
    obtain ⟨r, c, -, f⟩ := initLimitsLoop_spec robot _ 0 _ lim hloop
    refine ⟨rfl, rfl, r, c, ?_⟩
    intro j seg hj
    obtain ⟨l, hl, a, b⟩ := f j seg hj
    rw [Nat.zero_add] at a b
    exact ⟨l, hl, a, b⟩

/-- The three guards of `init`: without a root, without a tree or without a
chain it returns `false` and the object is left uninitialized. -/
theorem init_guards {Tree : Type} (treeFromUrdfModel : urdf.Model K → Bool × Tree)
    (getChain : Tree → String → String → KDL.Chain → Bool × KDL.Chain)
    (junk : K) (kin : BasicKin K) (robot : urdf.Model K) (base_name tip_name : String)
    (hfail : robot.getRoot = false ∨ (treeFromUrdfModel robot).1 = false ∨
      (getChain (treeFromUrdfModel robot).2 base_name tip_name kin.robot_chain_).1 = false) :
    ∃ kin1, init treeFromUrdfModel getChain junk kin robot base_name tip_name
        = some (false, kin1) ∧ kin1.initialized_ = false := by
  unfold init
  simp only
  split_ifs with h1 h2 h3
  · exact ⟨_, rfl, rfl⟩
  · exact ⟨_, rfl, rfl⟩
  · exact ⟨_, rfl, rfl⟩
  · simp only [Bool.not_eq_true, Bool.not_eq_eq_eq_not, Bool.not_true, Bool.not_false] at h1 h2 h3
    rcases hfail with h | h | h
    · rw [h] at h1; exact absurd rfl h1
    · rw [h] at h2; exact absurd rfl h2
    · rw [h] at h3; exact absurd rfl h3

/-- The limits loop dereferences a null pointer as soon as an actuated segment
has no limits in the robot description. -/
theorem initLimitsLoop_undefined (robot : urdf.Model K) (segs : List KDL.Segment) :
    ∀ (j : Nat) (lim : MatrixXd K),
      (∃ seg ∈ segs, seg.getJoint.getType ≠ KDL.JointType.None ∧
        limitsOf robot seg.getJoint.getName = none) →
      initLimitsLoop robot segs j lim = none := by
  induction segs with
  | nil => rintro j lim ⟨seg, hmem, -⟩; cases hmem
  | cons seg rest ih =>
    rintro j lim ⟨seg0, hmem, hty0, hl0⟩
    by_cases hty : seg.getJoint.getType = KDL.JointType.None
    · simp only [initLimitsLoop, hty, if_true]
      rcases List.mem_cons.mp hmem with rfl | hm
      · exact absurd hty hty0
      · exact ih j lim ⟨seg0, hm, hty0, hl0⟩
    · simp only [initLimitsLoop, hty, if_false]
      cases hl : (robot.getJoint seg.getJoint.getName).bind (fun p => p.limits) with
      | none => rfl
      | some l =>
        have hne : seg0 ≠ seg := by
          rintro rfl
          unfold limitsOf at hl0
          rw [hl0] at hl
          cases hl
        have hm : seg0 ∈ rest := by
          rcases List.mem_cons.mp hmem with h | h
          · exact absurd h hne
          · exact h
        simp only
        cases hs0 : lim.set j 0 l.lower with
        | none => rfl
        | some lim2 =>
          simp only
          cases hs1 : lim2.set j 1 l.upper with
          | none => rfl
          | some lim3 => exact ih (j + 1) lim3 ⟨seg0, hm, hty0, hl0⟩

/-- Past its three guards, `init` dereferences a null pointer when an actuated
joint of the chain has no limits in the robot description. -/
theorem init_undefined_of_missing_limits {Tree : Type}
    (treeFromUrdfModel : urdf.Model K → Bool × Tree)
    (getChain : Tree → String → String → KDL.Chain → Bool × KDL.Chain)
    (junk : K) (kin : BasicKin K) (robot : urdf.Model K) (base_name tip_name : String)
    (hroot : robot.getRoot = true) (htree : (treeFromUrdfModel robot).1 = true)
    (hchain : (getChain (treeFromUrdfModel robot).2 base_name tip_name kin.robot_chain_).1
      = true)
    (hmiss : ∃ seg ∈ (getChain (treeFromUrdfModel robot).2 base_name tip_name
        kin.robot_chain_).2.segments,
      seg.getJoint.getType ≠ KDL.JointType.None ∧
        limitsOf robot seg.getJoint.getName = none) :
    init treeFromUrdfModel getChain junk kin robot base_name tip_name = none := by
  unfold init
  simp only [hroot, htree, hchain, Bool.not_true, Bool.false_eq_true, if_false]
  rw [initLimitsLoop_undefined robot _ 0 _ hmiss]

end Tables

section Kinematics

variable {D : Type} [LT D] [DecidableRel (α := D) (· < ·)]

/-- The bounds loop returns, and its flag stays `true` exactly when it
started `true` and the test of line 178 fired on no visited joint. -/
theorem checkJointsLoop_spec (kin : BasicKin D) (vec : VectorXd D)
    (hcols : kin.joint_limits_.cols = 2) (l : List Nat)
    (hl : ∀ i ∈ l, i < vec.size ∧ i < kin.joint_limits_.rows) (ok : Bool) :
    ∃ r, checkJointsLoop kin vec l ok = some r ∧
      (r = true ↔ ok = true ∧ ∀ i ∈ l, InRange kin vec i) := by
  induction l generalizing ok with
  | nil => exact ⟨ok, rfl, by simp⟩
  | cons i rest ih =>
    obtain ⟨hiv, hir⟩ := hl i (List.mem_cons_self _ _)
    have hrest : ∀ k ∈ rest, k < vec.size ∧ k < kin.joint_limits_.rows :=
      fun k hk => hl k (List.mem_cons_of_mem _ hk)
    have h0 : (0 : Nat) < kin.joint_limits_.cols := by omega
    have h1 : (1 : Nat) < kin.joint_limits_.cols := by omega
    have ev := vector_coeff?_of_lt vec hiv
    have e0 := matrix_coeff?_of_lt kin.joint_limits_ hir h0
    have e1 := matrix_coeff?_of_lt kin.joint_limits_ hir h1
    have hin : InRange kin vec i ↔
        ¬ (vec.coeff ⟨i, hiv⟩ < kin.joint_limits_.coeff ⟨i, hir⟩ ⟨0, h0⟩ ∨
           vec.coeff ⟨i, hiv⟩ > kin.joint_limits_.coeff ⟨i, hir⟩ ⟨1, h1⟩) := by
      unfold InRange
      rw [ev, e0, e1]
      constructor
      · rintro ⟨v, lo, hi, hv, hlo, hhi, hn⟩
        simp only [Option.some.injEq] at hv hlo hhi
        subst hv hlo hhi
        exact hn
      · intro h
        exact ⟨_, _, _, rfl, rfl, rfl, h⟩
    simp only [checkJointsLoop, ev, e0, e1]
    split_ifs with hout
    · obtain ⟨r, hr, hiff⟩ := ih hrest false
      refine ⟨r, hr, ?_⟩
      rw [hiff]
      constructor
      · rintro ⟨h, -⟩; cases h
      · rintro ⟨-, h⟩
        exact absurd hout (hin.mp (h i (List.mem_cons_self _ _)))
    · obtain ⟨r, hr, hiff⟩ := ih hrest ok
      refine ⟨r, hr, ?_⟩
      rw [hiff]
      constructor
      · rintro ⟨h, hall⟩
        refine ⟨h, fun k hk => ?_⟩
        rcases List.mem_cons.mp hk with rfl | hk
        · exact hin.mpr hout
        · exact hall k hk
      · rintro ⟨h, hall⟩
        exact ⟨h, fun k hk => hall k (List.mem_cons_of_mem _ hk)⟩

/-- With a limits table of the right shape `checkJoints` always returns, and
its answer is `true` exactly on a vector of the chain's joint count on which
the test of line 178 fires for no joint. -/
theorem checkJoints_cases (kin : BasicKin D) (vec : VectorXd D) (hshape : LimitsShape kin) :
    (checkJoints kin vec = some true ∧
      vec.size = kin.robot_chain_.getNrOfJoints ∧ ∀ i, i < vec.size → InRange kin vec i) ∨
    (checkJoints kin vec = some false ∧
      ¬ (vec.size = kin.robot_chain_.getNrOfJoints ∧
        ∀ i, i < vec.size → InRange kin vec i)) := by
  obtain ⟨hrows, hcols⟩ := hshape
  by_cases hsz : vec.size = kin.robot_chain_.getNrOfJoints
  · obtain ⟨r, hr, hiff⟩ := checkJointsLoop_spec kin vec hcols (List.range vec.size)
      (fun i hi => by rw [List.mem_range] at hi; omega) true
    have hall : (∀ i ∈ List.range vec.size, InRange kin vec i) ↔
        ∀ i, i < vec.size → InRange kin vec i := by
      simp only [List.mem_range]
    rw [hall] at hiff
    have hcj : checkJoints kin vec = some r := by
      unfold checkJoints
      rw [if_neg (not_not.mpr hsz), hr]
      cases r <;> simp
    rw [hcj]
    cases r
    · right
      refine ⟨rfl, ?_⟩
      rintro ⟨-, h⟩
      exact Bool.false_ne_true (hiff.mpr ⟨rfl, h⟩)
    · left
      exact ⟨rfl, hsz, (hiff.mp rfl).2⟩
  · right
    refine ⟨?_, fun h => hsz h.1⟩
    unfold checkJoints
    simp [hsz]

end Kinematics

section Conversions

variable {D : Type}

end Conversions

section Comparisons

variable {K : Type} [LinearOrder K]

/-- Away from NaN, `a < b` fails exactly when `b <= a`. -/
theorem double_not_lt_iff (a b : Double K) (ha : a ≠ Double.nan) (hb : b ≠ Double.nan) :
    ¬ (a < b) ↔ b ≤ a := by
  cases a <;> cases b <;>
    simp [LT.lt, LE.le, Double.blt, Double.ble] at ha hb ⊢

/-- No comparison with NaN holds. -/
theorem double_nan_not_lt (a : Double K) :
    ¬ (Double.nan < a) ∧ ¬ (a < Double.nan) ∧ ¬ (Double.nan ≤ a) ∧ ¬ (a ≤ Double.nan) := by
  cases a <;> simp [LT.lt, LE.le, Double.blt, Double.ble]

/-- The joint vector `q1` passes the test of `kin1` (on the upper limit). -/
theorem q1_inRange : ∀ i, i < q1.size → InRange kin1 q1 i := by
  intro i hi
  have h0 : i = 0 := by
    have : q1.size = 1 := rfl
    omega
  subst h0
  refine ⟨Double.num 1, Double.num (-1), Double.num 1, ?_, ?_, ?_, ?_⟩
  · simp [VectorXd.coeff?, q1]
  · simp [MatrixXd.coeff?, kin1]
  · simp [MatrixXd.coeff?, kin1]
  · decide

/-- The NaN joint passes the test of `kin1`. -/
theorem qNaN_inRange : ∀ i, i < qNaN.size → InRange kin1 qNaN i := by
  intro i hi
  have h0 : i = 0 := by
    have : qNaN.size = 1 := rfl
    omega
  subst h0
  refine ⟨Double.nan, Double.num (-1), Double.num 1, ?_, ?_, ?_, ?_⟩
  · simp [VectorXd.coeff?, qNaN]
  · simp [MatrixXd.coeff?, kin1]
  · simp [MatrixXd.coeff?, kin1]
  · simp [LT.lt, Double.blt]

/-- Counterexample to C6 as stated: on the joint vector `[NaN]` of the right
size `checkJoints` returns `true`, although
`joint_limits_(0,0) <= vec[0] <= joint_limits_(0,1)` does not hold. -/
theorem checkJoints_accepts_nan :
    checkJoints kin1 qNaN = some true ∧
    ¬ (qNaN.size = kin1.robot_chain_.getNrOfJoints ∧
      ∀ i, i < qNaN.size → InBounds kin1 qNaN i) := by
  constructor
  · rcases checkJoints_cases kin1 qNaN ⟨rfl, rfl⟩ with h | h
    · exact h.1
    · exact absurd ⟨rfl, qNaN_inRange⟩ h.2
  · rintro ⟨-, h⟩
    obtain ⟨v, lo, hi, hv, -, -, hle, -⟩ := h 0 (by decide)
    have hv1 : v = Double.nan := by
      simp [VectorXd.coeff?, qNaN] at hv
      exact hv.symm
    subst hv1
    exact (double_nan_not_lt lo).2.2.2 hle

/-- Claim C6 (amended): with the limits table of an initialized object,
`checkJoints` returns `true` exactly when `vec.size()` is the chain's joint
count and for every `i` neither `vec[i] < joint_limits_(i,0)` nor
`vec[i] > joint_limits_(i,1)` holds, and `false` otherwise. When `vec[i]` and
its two limits are not NaN that is `joint_limits_(i,0) <= vec[i] <=
joint_limits_(i,1)`, bounds included; a NaN joint fails neither comparison. -/
theorem checkJoints_iff (kin : BasicKin (Double K)) (vec : VectorXd (Double K))
    (hshape : LimitsShape kin) :
    (∃ r, checkJoints kin vec = some r) ∧
    (checkJoints kin vec = some true ↔
      vec.size = kin.robot_chain_.getNrOfJoints ∧ ∀ i, i < vec.size → InRange kin vec i) ∧
    (checkJoints kin vec = some false ↔
      ¬ (vec.size = kin.robot_chain_.getNrOfJoints ∧
        ∀ i, i < vec.size → InRange kin vec i)) ∧
    (∀ i v lo hi, vec.coeff? i = some v → kin.joint_limits_.coeff? i 0 = some lo →
      kin.joint_limits_.coeff? i 1 = some hi →
      (InRange kin vec i ↔ ¬ (v < lo) ∧ ¬ (v > hi)) ∧
      (v ≠ Double.nan → lo ≠ Double.nan → hi ≠ Double.nan →
        (InRange kin vec i ↔ lo ≤ v ∧ v ≤ hi)) ∧
      (v = Double.nan → InRange kin vec i)) := by
  have hcoef : ∀ i v lo hi, vec.coeff? i = some v → kin.joint_limits_.coeff? i 0 = some lo →
      kin.joint_limits_.coeff? i 1 = some hi →
      (InRange kin vec i ↔ ¬ (v < lo) ∧ ¬ (v > hi)) := by
    intro i v lo hi hv hlo hhi
    unfold InRange
    rw [hv, hlo, hhi]
    constructor
    · rintro ⟨v1, lo1, hi1, h1, h2, h3, hn⟩
      simp only [Option.some.injEq] at h1 h2 h3
      subst h1 h2 h3
      exact not_or.mp hn
    · intro h
      exact ⟨_, _, _, rfl, rfl, rfl, not_or.mpr h⟩
  have hlast : ∀ i v lo hi, vec.coeff? i = some v → kin.joint_limits_.coeff? i 0 = some lo →
      kin.joint_limits_.coeff? i 1 = some hi →
      (InRange kin vec i ↔ ¬ (v < lo) ∧ ¬ (v > hi)) ∧
      (v ≠ Double.nan → lo ≠ Double.nan → hi ≠ Double.nan →
        (InRange kin vec i ↔ lo ≤ v ∧ v ≤ hi)) ∧
      (v = Double.nan → InRange kin vec i) := by
    intro i v lo hi hv hlo hhi
    have hc := hcoef i v lo hi hv hlo hhi
    refine ⟨hc, ?_, ?_⟩
    · intro nv nlo nhi
      rw [hc, double_not_lt_iff v lo nv nlo]
      show lo ≤ v ∧ ¬ (hi < v) ↔ lo ≤ v ∧ v ≤ hi
      rw [double_not_lt_iff hi v nhi nv]
    · intro hnan
      subst hnan
      rw [hc]
      exact ⟨(double_nan_not_lt lo).1, (double_nan_not_lt hi).2.1⟩
  rcases checkJoints_cases kin vec hshape with ⟨hcj, h⟩ | ⟨hcj, h⟩
  · rw [hcj]
    exact ⟨⟨true, rfl⟩, ⟨fun _ => h, fun _ => rfl⟩,
      ⟨fun hf => (by cases hf), fun hn => absurd h hn⟩, hlast⟩
  · rw [hcj]
    exact ⟨⟨false, rfl⟩, ⟨fun hf => (by cases hf), fun hn => absurd hn h⟩,
      ⟨fun _ => h, fun _ => rfl⟩, hlast⟩

/-- Witness of C6 (amended): the vector `[1]`, exactly on the upper limit of
`kin1`, is accepted. -/
theorem checkJoints_iff_witness : LimitsShape kin1 ∧ checkJoints kin1 q1 = some true :=
  ⟨⟨rfl, rfl⟩, (checkJoints_iff kin1 q1 ⟨rfl, rfl⟩).2.1.mpr ⟨rfl, q1_inRange⟩⟩

end Comparisons

section ForwardKinematics

variable {D : Type} [LT D] [DecidableRel (α := D) (· < ·)] [Zero D] [One D]

end ForwardKinematics

section Initialisation

variable {K : Type} [LinearOrderedField K]

/-- Claim C8: on a robot description with a root whose chain resolves and
whose actuated joint `j1` has no limits, `init` does not return `false`: it
dereferences the null `limits` pointer (undefined behaviour, `none` here). -/
theorem init_missing_limits :
    init treeOk getChain1 0 kinDefault robotNoLimits "base_link" "tool0" = none ∧
    ∀ k, init treeOk getChain1 0 kinDefault robotNoLimits "base_link" "tool0"
      ≠ some (false, k) := by
  have h : init treeOk getChain1 0 kinDefault robotNoLimits "base_link" "tool0" = none := by
    simp [init, treeOk, getChain1, robotNoLimits, chain1, initLimitsLoop]
  exact ⟨h, fun k hk => by rw [h] at hk; cases hk⟩

/-- On the robot with `lower = 1`, `upper = -1` the call succeeds. -/
theorem init_swapped_succeeds :
    ∃ k, init treeOk getChain1 0 kinDefault robotSwapped "base_link" "tool0"
      = some (true, k) := by
  simp [init, treeOk, getChain1, robotSwapped, chain1, initLimitsLoop, MatrixXd.resize,
    MatrixXd.set, KDL.Chain.getNrOfJoints]

/-- On the robot with limits `[-1, 1]` the call succeeds. -/
theorem init_ok_succeeds :
    ∃ k, init treeOk getChain1 0 kinDefault robotOk "base_link" "tool0" = some (true, k) := by
  simp [init, treeOk, getChain1, robotOk, chain1, initLimitsLoop, MatrixXd.resize,
    MatrixXd.set, KDL.Chain.getNrOfJoints]

/-- Counterexample to C9 as stated: `init` succeeds on a robot description
whose joint has `lower = 1 > upper = -1`, and the row it stores is not
ordered. -/
theorem init_limits_unordered :
    ∃ k, init treeOk getChain1 0 kinDefault robotSwapped "base_link" "tool0"
      = some (true, k) ∧ ¬ LimitsOrdered k := by
  obtain ⟨k, hk⟩ := init_swapped_succeeds
  refine ⟨k, hk, ?_⟩
  obtain ⟨-, hc, hr, -, f⟩ := init_success_spec _ _ _ _ _ _ _ _ hk
  have hc1 : k.robot_chain_ = chain1 := hc
  rw [hc1] at hr f
  obtain ⟨l, hl, a, b⟩ := f 0 ⟨⟨"j1", KDL.JointType.RotZ⟩⟩ rfl
  have hl1 : l = ⟨1, -1⟩ := by
    simp [limitsOf, robotSwapped] at hl
    exact hl.symm
  subst hl1
  intro hord
  obtain ⟨lo, hi, a1, b1, hle⟩ := hord 0 (by rw [hr]; decide)
  rw [a] at a1
  rw [b] at b1
  simp only [Option.some.injEq] at a1 b1
  subst a1 b1
  norm_num at hle

/-- Claim C9 (amended): after a successful `init` the limits table has two
columns and exactly one row per actuated joint (fixed joints skipped, rows in
chain order), row `j` holding the `lower` and `upper` that the robot
description gives for the `j`-th actuated joint; the rows satisfy
`lower <= upper` whenever the limits of the description do. -/
theorem init_limits_table {Tree : Type} (treeFromUrdfModel : urdf.Model K → Bool × Tree)
    (getChain : Tree → String → String → KDL.Chain → Bool × KDL.Chain)
    (junk : K) (kin kin1 : BasicKin K) (robot : urdf.Model K) (base_name tip_name : String)
    (h : init treeFromUrdfModel getChain junk kin robot base_name tip_name = some (true, kin1)) :
    kin1.initialized_ = true ∧
    kin1.joint_limits_.rows = (actuated kin1.robot_chain_).length ∧
    kin1.joint_limits_.rows = kin1.robot_chain_.getNrOfJoints ∧
    kin1.joint_limits_.cols = 2 ∧
    (∀ j seg, (actuated kin1.robot_chain_)[j]? = some seg →
      ∃ l, limitsOf robot seg.getJoint.getName = some l ∧
        kin1.joint_limits_.coeff? j 0 = some l.lower ∧
        kin1.joint_limits_.coeff? j 1 = some l.upper) ∧
    ((∀ seg l, seg ∈ actuated kin1.robot_chain_ →
        limitsOf robot seg.getJoint.getName = some l → l.lower ≤ l.upper) →
      LimitsOrdered kin1) := by
  obtain ⟨hi, -, hr, hc, f⟩ := init_success_spec _ _ _ _ _ _ _ _ h
  refine ⟨hi, hr, hr, hc, f, ?_⟩
  intro hord j hj
  rw [hr] at hj
  obtain ⟨l, hl, a, b⟩ := f j ((actuated kin1.robot_chain_).get ⟨j, hj⟩)
    (List.getElem?_eq_getElem hj)
  exact ⟨l.lower, l.upper, a, b, hord _ l (List.getElem_mem hj) hl⟩

/-- Witness of C9 (amended): `init` succeeds on the robot with limits
`[-1, 1]`. -/
theorem init_limits_table_witness :
    ∃ k, init treeOk getChain1 0 kinDefault robotOk "base_link" "tool0" = some (true, k) ∧
      k.initialized_ = true ∧ k.joint_limits_.rows = k.robot_chain_.getNrOfJoints ∧
      k.joint_limits_.cols = 2 :=
  let ⟨k, hk⟩ := init_ok_succeeds
  let ⟨h1, _, h3, h4, _⟩ := init_limits_table treeOk getChain1 0 kinDefault k robotOk
    "base_link" "tool0" hk
  ⟨k, hk, h1, h3, h4⟩

end Initialisation

end basic_kin
end constrained_ik
